import Mathlib

/-!
Verification of `src/Lab2Var5.cpp` (parallel vector-sum benchmark).

The program generates `N = 30000` vectors of `M = 100` ints in `[-1000, 1000]`,
partitions the index range `[0, N)` into `W` contiguous ranges (one per thread),
has each worker write `sums[i] = Σ vectors[i]` for its range, validates a random
sample of 10 indices, and prints per-trial timings plus summary statistics of
the last trial's sums.

Shallow embedding: datasets are `List (List Int)`, the results buffer is
`List Int`, the C++ `long long` accumulator is modelled by explicit wrap-around
arithmetic modulo `2^64` on `Int`, and the concurrent workers (whose writes are
disjoint) are modelled by sequential application of the per-range worker to the
shared buffer.
-/

/-- Signed 64-bit wrap-around normalisation: the value of a C++ `long long`
holding the integer `x` (two's complement). -/
def i64wrap (x : Int) : Int := (x + 2 ^ 63) % 2 ^ 64 - 2 ^ 63

/-- Signed 64-bit addition (`sum += value` on a `long long`). -/
def i64add (a b : Int) : Int := i64wrap (a + b)

/-- Exact mathematical sum of a list of integers. -/
def sumInt : List Int → Int
  | [] => 0
  | x :: xs => x + sumInt xs

/-- The inner loop of `calculateSumsRange` (lines 43–46): linear accumulation
of one vector's elements into a 64-bit signed accumulator starting at 0. -/
def vectorSum (v : List Int) : Int := v.foldl i64add 0

theorem i64wrap_eq_of_bounds (x : Int) (h1 : -(2 ^ 63) ≤ x) (h2 : x < 2 ^ 63) :
    i64wrap x = x := by
  unfold i64wrap
  have h3 : (0 : Int) ≤ x + 2 ^ 63 := by omega
  have h4 : x + 2 ^ 63 < 2 ^ 64 := by omega
  rw [Int.emod_eq_of_lt h3 h4]
  omega

theorem sumInt_bounds (v : List Int) (h : ∀ x ∈ v, -1000 ≤ x ∧ x ≤ 1000) :
    -(1000 * v.length) ≤ sumInt v ∧ sumInt v ≤ 1000 * v.length := by
  induction v with
  | nil => simp [sumInt]
  | cons x xs ih =>
    have hx := h x (by simp)
    have hxs := ih (fun y hy => h y (by simp [hy]))
    simp only [sumInt, List.length_cons]
    push_cast
    omega

theorem foldl_i64add_eq_sumInt (v : List Int) : ∀ acc : Int,
    (∀ x ∈ v, -1000 ≤ x ∧ x ≤ 1000) →
    -(2 ^ 63) + 1000 * v.length ≤ acc →
    acc + 1000 * v.length < 2 ^ 63 →
    v.foldl i64add acc = acc + sumInt v := by
  induction v with
  | nil => intro acc _ _ _; simp [sumInt]
  | cons x xs ih =>
    intro acc h hlo hhi
    have hx := h x (by simp)
    simp only [List.length_cons] at hlo hhi
    have hxlen : (0 : Int) ≤ 1000 * xs.length := by positivity
    have hstep : i64add acc x = acc + x := by
      apply i64wrap_eq_of_bounds <;> push_cast at hlo hhi ⊢ <;> omega
    simp only [List.foldl_cons, hstep]
    rw [ih (acc + x) (fun y hy => h y (by simp [hy])) (by push_cast at hlo ⊢; omega)
      (by push_cast at hhi ⊢; omega)]
    simp [sumInt]; ring

/-- Under the generator's bounds (`M ≤ 100` elements, each in `[-1000, 1000]`)
the 64-bit accumulation computes the exact mathematical sum. -/
theorem vectorSum_eq_sumInt (v : List Int) (hlen : v.length ≤ 100)
    (h : ∀ x ∈ v, -1000 ≤ x ∧ x ≤ 1000) : vectorSum v = sumInt v := by
  have := foldl_i64add_eq_sumInt v 0 h (by push_cast; omega) (by push_cast; omega)
  simpa [vectorSum] using this

/-- The write loop of `calculateSumsRange` (lines 42–48): starting at index
`start`, write `fuel` consecutive entries of `sums`, each to the 64-bit sum of
the corresponding vector. -/
def writeRange (vectors : List (List Int)) : List Int → Nat → Nat → List Int
  | sums, _, 0 => sums
  | sums, start, fuel + 1 =>
      writeRange vectors (sums.set start (vectorSum (vectors.getD start []))) (start + 1) fuel

/-- `VectorSumCalculator::calculateSumsRange(start_idx, end_idx, _)` restricted
to its effect on `sums`: for every `i` in `[start_idx, end_idx)` it sets
`sums[i]` to the 64-bit accumulated sum of `vectors[i]`. -/
def calculateSumsRange (vectors : List (List Int)) (start_idx end_idx : Nat)
    (sums : List Int) : List Int :=
  writeRange vectors sums start_idx (end_idx - start_idx)

theorem writeRange_length (vectors : List (List Int)) :
    ∀ (fuel : Nat) (sums : List Int) (start : Nat),
    (writeRange vectors sums start fuel).length = sums.length := by
  intro fuel
  induction fuel with
  | zero => intro sums start; rfl
  | succ n ih => intro sums start; rw [writeRange, ih, List.length_set]

theorem writeRange_getD (vectors : List (List Int)) :
    ∀ (fuel : Nat) (sums : List Int) (start i : Nat), i < sums.length →
    (writeRange vectors sums start fuel).getD i 0 =
      if start ≤ i ∧ i < start + fuel then vectorSum (vectors.getD i []) else sums.getD i 0 := by
  intro fuel
  induction fuel with
  | zero =>
    intro sums start i _
    rw [writeRange, if_neg (by omega)]
  | succ n ih =>
    intro sums start i hi
    rw [writeRange, ih _ _ _ (by rw [List.length_set]; exact hi)]
    by_cases hcase : start + 1 ≤ i ∧ i < start + 1 + n
    · have : start ≤ i ∧ i < start + (n + 1) := by omega
      simp [hcase, this]
    · simp only [hcase, if_false]
      by_cases heq : i = start
      · subst heq
        have hcond : i ≤ i ∧ i < i + (n + 1) := by omega
        simp only [hcond, and_self, if_true]
        rw [List.getD_eq_getElem?_getD, List.getElem?_set]
        simp [hi]
      · have hne : ¬(start = i) := fun h => heq h.symm
        have hcond : ¬(start ≤ i ∧ i < start + (n + 1)) := by omega
        simp only [hcond, if_false]
        rw [List.getD_eq_getElem?_getD, List.getElem?_set, if_neg hne,
          List.getD_eq_getElem?_getD]

theorem calculateSumsRange_length (vectors : List (List Int)) (s e : Nat) (sums : List Int) :
    (calculateSumsRange vectors s e sums).length = sums.length :=
  writeRange_length vectors (e - s) sums s

theorem calculateSumsRange_getD (vectors : List (List Int)) (s e : Nat) (sums : List Int)
    (i : Nat) (hi : i < sums.length) :
    (calculateSumsRange vectors s e sums).getD i 0 =
      if s ≤ i ∧ i < e then vectorSum (vectors.getD i []) else sums.getD i 0 := by
  rw [calculateSumsRange, writeRange_getD vectors (e - s) sums s i hi]
  by_cases h : s ≤ i ∧ i < e
  · have : s ≤ i ∧ i < s + (e - s) := by omega
    simp [h, this]
  · have : ¬(s ≤ i ∧ i < s + (e - s)) := by omega
    simp [h, this]

/-- The thread-launch loop of `measureExecutionTime` (lines 68–78), restricted
to the ranges it hands to the workers: `k` remaining iterations, loop counter
`i`, running start index `cur`; each iteration takes `vpt` vectors plus one
more when `i < rem`, where `vpt = N / W` and `rem = N % W`. -/
def partitionLoop (vpt rem : Nat) : Nat → Nat → Nat → List (Nat × Nat)
  | 0, _, _ => []
  | k + 1, i, cur =>
      let sz := vpt + (if i < rem then 1 else 0)
      (cur, cur + sz) :: partitionLoop vpt rem k (i + 1) (cur + sz)

/-- The W contiguous half-open ranges `measureExecutionTime` assigns to the
workers for `N` vectors and `W` threads. -/
def partitionRanges (N W : Nat) : List (Nat × Nat) :=
  partitionLoop (N / W) (N % W) W 0 0

/-- Total number of indices consumed by `k` iterations of the partition loop
starting at loop counter `i`. -/
def loopTotal (vpt rem : Nat) : Nat → Nat → Nat
  | 0, _ => 0
  | k + 1, i => (vpt + (if i < rem then 1 else 0)) + loopTotal vpt rem k (i + 1)

/-- Decides whether index `j` lies in one of the given half-open ranges. -/
def coveredb (ranges : List (Nat × Nat)) (j : Nat) : Bool :=
  ranges.any (fun r => r.1 ≤ j && j < r.2)

/-- Sum of the sizes of a list of half-open ranges. -/
def sizeSum (ranges : List (Nat × Nat)) : Nat :=
  (ranges.map (fun r => r.2 - r.1)).sum

theorem partitionLoop_length (vpt rem : Nat) :
    ∀ (k i cur : Nat), (partitionLoop vpt rem k i cur).length = k := by
  intro k
  induction k with
  | zero => intro i cur; rfl
  | succ n ih => intro i cur; simp [partitionLoop, ih]

theorem loopTotal_closed (vpt rem : Nat) :
    ∀ (k i : Nat), loopTotal vpt rem k i = k * vpt + (min (i + k) rem - min i rem) := by
  intro k
  induction k with
  | zero => intro i; simp [loopTotal]
  | succ n ih =>
    intro i
    rw [loopTotal, ih (i + 1)]
    by_cases h : i < rem <;> simp only [h, if_true, if_false] <;>
      rw [Nat.succ_mul] <;> omega

theorem loopTotal_add (vpt rem : Nat) :
    ∀ (a b i : Nat), loopTotal vpt rem (a + b) i =
      loopTotal vpt rem a i + loopTotal vpt rem b (i + a) := by
  intro a
  induction a with
  | zero => intro b i; simp [loopTotal]
  | succ n ih =>
    intro b i
    have hshift : n + 1 + b = (n + b) + 1 := by omega
    rw [hshift, loopTotal, loopTotal, ih b (i + 1)]
    have : i + 1 + n = i + (n + 1) := by omega
    rw [this]
    omega

theorem coveredb_cons (r : Nat × Nat) (rs : List (Nat × Nat)) (j : Nat) :
    coveredb (r :: rs) j = ((decide (r.1 ≤ j) && decide (j < r.2)) || coveredb rs j) := by
  simp [coveredb]

theorem partitionLoop_coveredb (vpt rem : Nat) :
    ∀ (k i cur j : Nat), coveredb (partitionLoop vpt rem k i cur) j = true ↔
      (cur ≤ j ∧ j < cur + loopTotal vpt rem k i) := by
  intro k
  induction k with
  | zero =>
    intro i cur j
    simp only [partitionLoop, coveredb, List.any_nil, loopTotal]
    constructor
    · intro h; exact absurd h (by simp)
    · intro h; exact absurd h (by omega)
  | succ n ih =>
    intro i cur j
    simp only [partitionLoop]
    rw [coveredb_cons, Bool.or_eq_true, Bool.and_eq_true, decide_eq_true_iff,
      decide_eq_true_iff, ih]
    simp only [loopTotal]
    by_cases h1 : i < rem <;> simp only [h1, if_true, if_false] <;> omega

theorem loopTotal_partition (N W : Nat) (hW : 1 ≤ W) :
    loopTotal (N / W) (N % W) W 0 = N := by
  rw [loopTotal_closed]
  have h1 : N % W < W := Nat.mod_lt _ (by omega)
  have h2 : W * (N / W) + N % W = N := Nat.div_add_mod N W
  omega

/-- The partition ranges of `measureExecutionTime` cover exactly `[0, N)`
whenever `W ≥ 1`. -/
theorem partitionRanges_coveredb (N W : Nat) (hW : 1 ≤ W) (j : Nat) :
    coveredb (partitionRanges N W) j = true ↔ j < N := by
  rw [partitionRanges, partitionLoop_coveredb, loopTotal_partition N W hW]
  simp

theorem partitionLoop_getD (vpt rem : Nat) :
    ∀ (j k i cur : Nat), j < k →
      (partitionLoop vpt rem k i cur).getD j (0, 0) =
        (cur + loopTotal vpt rem j i, cur + loopTotal vpt rem (j + 1) i) := by
  intro j
  induction j with
  | zero =>
    intro k i cur hj
    match k, hj with
    | n + 1, _ =>
      simp [partitionLoop, loopTotal]
  | succ m ih =>
    intro k i cur hj
    match k, hj with
    | n + 1, hj =>
      have hm : m < n := by omega
      simp only [partitionLoop, List.getD_cons_succ]
      rw [ih n (i + 1) _ hm]
      simp only [loopTotal, Prod.mk.injEq]
      exact ⟨by omega, by omega⟩

theorem sizeSum_partitionLoop (vpt rem : Nat) :
    ∀ (k i cur : Nat), sizeSum (partitionLoop vpt rem k i cur) = loopTotal vpt rem k i := by
  intro k
  induction k with
  | zero => intro i cur; rfl
  | succ n ih =>
    intro i cur
    simp only [partitionLoop, sizeSum, List.map_cons, List.sum_cons, loopTotal]
    rw [show ((partitionLoop vpt rem n (i + 1)
        (cur + (vpt + if i < rem then 1 else 0))).map (fun r => r.2 - r.1)).sum
      = sizeSum (partitionLoop vpt rem n (i + 1)
        (cur + (vpt + if i < rem then 1 else 0))) from rfl, ih]
    omega

/-- Effect of the launched worker tasks on the shared `sums` buffer: each
range's worker runs `calculateSumsRange` on its own slice. The workers run
concurrently in the program, but their written slices are disjoint, so the
joint effect equals sequential application in any order. -/
def runWorkers (vectors : List (List Int)) (ranges : List (Nat × Nat))
    (sums : List Int) : List Int :=
  ranges.foldl (fun s r => calculateSumsRange vectors r.1 r.2 s) sums

/-- The sums-buffer effect of `measureExecutionTime(num_threads)`: partition
`[0, vectors.length)` into `num_threads` ranges and run one worker per range. -/
def measureExecutionTimeSums (vectors : List (List Int)) (num_threads : Nat)
    (sums : List Int) : List Int :=
  runWorkers vectors (partitionRanges vectors.length num_threads) sums

/-- One trial of `runBenchmark`'s loop (lines 131–132): reset `sums` to zero
(`fill(sums.begin(), sums.end(), 0)`), then run `measureExecutionTime`. -/
def runTrial (vectors : List (List Int)) (num_threads : Nat) : List Int :=
  measureExecutionTimeSums vectors num_threads (List.replicate vectors.length 0)

theorem runWorkers_length (vectors : List (List Int)) :
    ∀ (ranges : List (Nat × Nat)) (sums : List Int),
      (runWorkers vectors ranges sums).length = sums.length := by
  intro ranges
  induction ranges with
  | nil => intro sums; rfl
  | cons r rest ih =>
    intro sums
    rw [runWorkers, List.foldl_cons]
    rw [show (rest.foldl (fun s t => calculateSumsRange vectors t.1 t.2 s)
        (calculateSumsRange vectors r.1 r.2 sums))
      = runWorkers vectors rest (calculateSumsRange vectors r.1 r.2 sums) from rfl]
    rw [ih, calculateSumsRange_length]

theorem runWorkers_getD (vectors : List (List Int)) :
    ∀ (ranges : List (Nat × Nat)) (sums : List Int) (i : Nat), i < sums.length →
      (runWorkers vectors ranges sums).getD i 0 =
        if coveredb ranges i then vectorSum (vectors.getD i []) else sums.getD i 0 := by
  intro ranges
  induction ranges with
  | nil => intro sums i _; simp [runWorkers, coveredb]
  | cons r rest ih =>
    intro sums i hi
    rw [runWorkers, List.foldl_cons]
    rw [show (rest.foldl (fun s t => calculateSumsRange vectors t.1 t.2 s)
        (calculateSumsRange vectors r.1 r.2 sums))
      = runWorkers vectors rest (calculateSumsRange vectors r.1 r.2 sums) from rfl]
    rw [ih _ i (by rw [calculateSumsRange_length]; exact hi),
      calculateSumsRange_getD vectors r.1 r.2 sums i hi, coveredb_cons]
    by_cases h1 : coveredb rest i <;> by_cases h2 : r.1 ≤ i ∧ i < r.2
    · simp [h1, h2]
    · simp [h1, h2]
    · have hd1 : decide (r.1 ≤ i) = true := by simp [h2.1]
      have hd2 : decide (i < r.2) = true := by simp [h2.2]
      simp [h1, h2, hd1, hd2]
    · have : ¬(decide (r.1 ≤ i) = true ∧ decide (i < r.2) = true) := by
        simpa [decide_eq_true_iff] using h2
      rcases Decidable.not_and_iff_or_not.mp this with hc | hc <;>
        simp [h1, h2, Bool.eq_false_iff.mpr]

theorem runTrial_length (vectors : List (List Int)) (W : Nat) :
    (runTrial vectors W).length = vectors.length := by
  rw [runTrial, measureExecutionTimeSums, runWorkers_length, List.length_replicate]

theorem runTrial_getD (vectors : List (List Int)) (W : Nat) (hW : 1 ≤ W) (i : Nat) :
    (runTrial vectors W).getD i 0 =
      if i < vectors.length then vectorSum (vectors.getD i []) else 0 := by
  by_cases hi : i < vectors.length
  · rw [runTrial, measureExecutionTimeSums,
      runWorkers_getD vectors _ _ i (by rw [List.length_replicate]; exact hi)]
    have hcov : coveredb (partitionRanges vectors.length W) i = true :=
      (partitionRanges_coveredb vectors.length W hW i).mpr hi
    simp [hcov, hi]
  · rw [List.getD_eq_getElem?_getD, List.getElem?_eq_none, Option.getD_none, if_neg hi]
    rw [runTrial_length]
    omega

/-- C1: for every dataset shaped like the generator's output (each vector at
most 100 elements, all in `[-1000, 1000]`) and every worker count `W ≥ 1`,
after a trial completes every results entry equals the exact mathematical sum
of its vector, as computed by linear accumulation into a 64-bit signed
accumulator. -/
theorem claim1_results_exact (vectors : List (List Int)) (W : Nat) (hW : 1 ≤ W)
    (hgen : ∀ v ∈ vectors, v.length ≤ 100 ∧ ∀ x ∈ v, -1000 ≤ x ∧ x ≤ 1000)
    (i : Nat) (hi : i < vectors.length) :
    (runTrial vectors W).getD i 0 = sumInt (vectors.getD i []) := by
  rw [runTrial_getD vectors W hW i, if_pos hi]
  have hmem : vectors.getD i [] ∈ vectors := by
    rw [List.getD_eq_getElem vectors [] hi]
    exact List.getElem_mem hi
  exact vectorSum_eq_sumInt _ (hgen _ hmem).1 (hgen _ hmem).2

theorem claim1_results_exact_witness :
    (runTrial [[1, 2, 3], [4, 5, 6]] 2).getD 1 0 = sumInt ([[1, 2, 3], [4, 5, 6]].getD 1 []) :=
  claim1_results_exact [[1, 2, 3], [4, 5, 6]] 2 (by decide) (by decide) 1 (by decide)

/-- C3: the computed results are invariant to the number of partitions — for
every dataset and every worker count `k ≥ 1`, the trial with `W = 1` produces
a results buffer elementwise identical to the trial with `W = k`. -/
theorem claim3_partition_invariant (vectors : List (List Int)) (k : Nat) (hk : 1 ≤ k) :
    runTrial vectors 1 = runTrial vectors k := by
  apply List.ext_getElem
  · rw [runTrial_length, runTrial_length]
  · intro n h1 h2
    have hn : n < vectors.length := by rw [runTrial_length] at h1; exact h1
    have e1 := runTrial_getD vectors 1 (by omega) n
    have e2 := runTrial_getD vectors k hk n
    rw [List.getD_eq_getElem _ 0 h1, if_pos hn] at e1
    rw [List.getD_eq_getElem _ 0 h2, if_pos hn] at e2
    rw [e1, e2]

theorem claim3_partition_invariant_witness :
    runTrial [[1], [2, 3], [4, 5, 6]] 1 = runTrial [[1], [2, 3], [4, 5, 6]] 2 :=
  claim3_partition_invariant [[1], [2, 3], [4, 5, 6]] 2 (by decide)

theorem partitionRanges_getD (N W j : Nat) (hj : j < W) :
    (partitionRanges N W).getD j (0, 0) =
      (j * (N / W) + min j (N % W), (j + 1) * (N / W) + min (j + 1) (N % W)) := by
  rw [partitionRanges, partitionLoop_getD _ _ j W 0 0 hj, loopTotal_closed, loopTotal_closed]
  have h1 : min (0 + j) (N % W) = min j (N % W) := by omega
  have h2 : min (0 + (j + 1)) (N % W) = min (j + 1) (N % W) := by omega
  simp only [Prod.mk.injEq]
  constructor <;> omega

theorem partitionRanges_disjoint (N W j k : Nat) (hjk : j < k) (hk : k < W) :
    ((partitionRanges N W).getD j (0, 0)).2 ≤ ((partitionRanges N W).getD k (0, 0)).1 := by
  rw [partitionRanges_getD N W j (by omega), partitionRanges_getD N W k hk]
  have h1 : (j + 1) * (N / W) ≤ k * (N / W) := Nat.mul_le_mul_right _ (by omega)
  have h2 : min (j + 1) (N % W) ≤ min k (N % W) := by omega
  simpa using by omega

theorem partitionRanges_length (N W : Nat) : (partitionRanges N W).length = W :=
  partitionLoop_length _ _ W 0 0

/-- C2: for `1 ≤ W ≤ N` the partition loop of `measureExecutionTime` produces
exactly `W` contiguous half-open ranges, of size `⌊N/W⌋ + 1` for the first
`N mod W` ranges and `⌊N/W⌋` for the rest, contiguous and ordered by strictly
increasing start index, pairwise disjoint, with sizes summing to `N` and union
exactly `[0, N)`. -/
theorem claim2_partitioner (N W : Nat) (hW : 1 ≤ W) (hWN : W ≤ N) :
    (partitionRanges N W).length = W ∧
    (∀ j, j < W →
      ((partitionRanges N W).getD j (0, 0)).2 - ((partitionRanges N W).getD j (0, 0)).1
        = N / W + (if j < N % W then 1 else 0)) ∧
    (∀ j, j + 1 < W →
      ((partitionRanges N W).getD j (0, 0)).2 = ((partitionRanges N W).getD (j + 1) (0, 0)).1) ∧
    (∀ j, j + 1 < W →
      ((partitionRanges N W).getD j (0, 0)).1 < ((partitionRanges N W).getD (j + 1) (0, 0)).1) ∧
    (∀ j k, j < k → k < W →
      ((partitionRanges N W).getD j (0, 0)).2 ≤ ((partitionRanges N W).getD k (0, 0)).1) ∧
    sizeSum (partitionRanges N W) = N ∧
    (∀ i, coveredb (partitionRanges N W) i = true ↔ i < N) := by
  refine ⟨partitionRanges_length N W, ?_, ?_, ?_, fun j k hjk hk =>
    partitionRanges_disjoint N W j k hjk hk, ?_, fun i => partitionRanges_coveredb N W hW i⟩
  · intro j hj
    rw [partitionRanges_getD N W j hj]
    have hmul : (j + 1) * (N / W) = j * (N / W) + N / W := Nat.succ_mul j (N / W)
    generalize hq : N / W = q at hmul ⊢
    generalize hr : N % W = r
    by_cases h : j < r <;> simp only [h, if_true, if_false] <;> omega
  · intro j hj
    rw [partitionRanges_getD N W j (by omega), partitionRanges_getD N W (j + 1) hj]
  · intro j hj
    rw [partitionRanges_getD N W j (by omega), partitionRanges_getD N W (j + 1) hj]
    have hvpt : 1 ≤ N / W := (Nat.one_le_div_iff (by omega)).mpr hWN
    have hmul : (j + 1) * (N / W) = j * (N / W) + N / W := Nat.succ_mul j (N / W)
    simp only []
    omega
  · rw [partitionRanges, sizeSum_partitionLoop, loopTotal_partition N W hW]

theorem claim2_partitioner_witness :
    (1 ≤ 2 ∧ 2 ≤ 5) ∧
    ((partitionRanges 5 2).length = 2 ∧
    (∀ j, j < 2 →
      ((partitionRanges 5 2).getD j (0, 0)).2 - ((partitionRanges 5 2).getD j (0, 0)).1
        = 5 / 2 + (if j < 5 % 2 then 1 else 0)) ∧
    (∀ j, j + 1 < 2 →
      ((partitionRanges 5 2).getD j (0, 0)).2 = ((partitionRanges 5 2).getD (j + 1) (0, 0)).1) ∧
    (∀ j, j + 1 < 2 →
      ((partitionRanges 5 2).getD j (0, 0)).1 < ((partitionRanges 5 2).getD (j + 1) (0, 0)).1) ∧
    (∀ j k, j < k → k < 2 →
      ((partitionRanges 5 2).getD j (0, 0)).2 ≤ ((partitionRanges 5 2).getD k (0, 0)).1) ∧
    sizeSum (partitionRanges 5 2) = 5 ∧
    (∀ i, coveredb (partitionRanges 5 2) i = true ↔ i < 5)) :=
  ⟨by decide, claim2_partitioner 5 2 (by decide) (by decide)⟩

/-- C10: for `W > N ≥ 1` (beyond the spec's assumed `W ≤ N`) the partition
loop still yields `W` ranges covering exactly `[0, N)`: the first `N` ranges
are the singletons `[j, j+1)`, the remaining `W - N` ranges are the empty
range `[N, N)`, the ranges stay pairwise disjoint, and a trial still computes
every results entry. -/
theorem claim10_excess_workers (N W : Nat) (hN : 1 ≤ N) (hNW : N < W) :
    (partitionRanges N W).length = W ∧
    (∀ j, j < N → (partitionRanges N W).getD j (0, 0) = (j, j + 1)) ∧
    (∀ j, N ≤ j → j < W → (partitionRanges N W).getD j (0, 0) = (N, N)) ∧
    (∀ j k, j < k → k < W →
      ((partitionRanges N W).getD j (0, 0)).2 ≤ ((partitionRanges N W).getD k (0, 0)).1) ∧
    (∀ i, coveredb (partitionRanges N W) i = true ↔ i < N) ∧
    (∀ vectors : List (List Int), vectors.length = N → ∀ i, i < N →
      (runTrial vectors W).getD i 0 = vectorSum (vectors.getD i [])) := by
  have hdiv : N / W = 0 := Nat.div_eq_of_lt hNW
  have hmod : N % W = N := Nat.mod_eq_of_lt hNW
  have hW : 1 ≤ W := by omega
  refine ⟨partitionRanges_length N W, ?_, ?_, fun j k hjk hk =>
    partitionRanges_disjoint N W j k hjk hk, fun i => partitionRanges_coveredb N W hW i, ?_⟩
  · intro j hj
    rw [partitionRanges_getD N W j (by omega), hdiv, hmod]
    simp only [Prod.mk.injEq]
    constructor <;> omega
  · intro j hjN hjW
    rw [partitionRanges_getD N W j hjW, hdiv, hmod]
    simp only [Prod.mk.injEq]
    constructor <;> omega
  · intro vectors hlen i hi
    rw [runTrial_getD vectors W hW i, if_pos (by omega)]

theorem claim10_excess_workers_witness :
    (1 ≤ 2 ∧ 2 < 5) ∧
    ((partitionRanges 2 5).length = 5 ∧
    (∀ j, j < 2 → (partitionRanges 2 5).getD j (0, 0) = (j, j + 1)) ∧
    (∀ j, 2 ≤ j → j < 5 → (partitionRanges 2 5).getD j (0, 0) = (2, 2)) ∧
    (∀ j k, j < k → k < 5 →
      ((partitionRanges 2 5).getD j (0, 0)).2 ≤ ((partitionRanges 2 5).getD k (0, 0)).1) ∧
    (∀ i, coveredb (partitionRanges 2 5) i = true ↔ i < 2) ∧
    (∀ vectors : List (List Int), vectors.length = 2 → ∀ i, i < 2 →
      (runTrial vectors 5).getD i 0 = vectorSum (vectors.getD i []))) :=
  ⟨by decide, claim10_excess_workers 2 5 (by decide) (by decide)⟩

/-- A worker task acting on the shared state `(vectors, sums)`: it reads
`vectors` (never writing it) and rewrites `sums` via `calculateSumsRange`. -/
def workerTask (st : List (List Int) × List Int) (start_idx end_idx : Nat) :
    List (List Int) × List Int :=
  (st.1, calculateSumsRange st.1 start_idx end_idx st.2)

/-- C5: a worker task on partition `[start_idx, end_idx)` with
`start_idx ≤ end_idx ≤ N` leaves the dataset unchanged, preserves the length
of the results buffer, and leaves every results entry outside its partition
unchanged. -/
theorem claim5_worker_frame (vectors : List (List Int)) (sums : List Int)
    (start_idx end_idx : Nat) (_hse : start_idx ≤ end_idx) (_hend : end_idx ≤ sums.length) :
    (workerTask (vectors, sums) start_idx end_idx).1 = vectors ∧
    (workerTask (vectors, sums) start_idx end_idx).2.length = sums.length ∧
    (∀ i, i < sums.length → (i < start_idx ∨ end_idx ≤ i) →
      (workerTask (vectors, sums) start_idx end_idx).2.getD i 0 = sums.getD i 0) := by
  refine ⟨rfl, calculateSumsRange_length vectors start_idx end_idx sums, ?_⟩
  intro i hi hout
  show (calculateSumsRange vectors start_idx end_idx sums).getD i 0 = sums.getD i 0
  rw [calculateSumsRange_getD vectors _ _ sums i hi, if_neg (by omega)]

theorem claim5_worker_frame_witness :
    (1 ≤ 2 ∧ 2 ≤ 3) ∧
    ((workerTask ([[1], [2], [3]], [7, 8, 9]) 1 2).1 = [[1], [2], [3]] ∧
    (workerTask ([[1], [2], [3]], [7, 8, 9]) 1 2).2.length = [7, 8, 9].length ∧
    (∀ i, i < [(7 : Int), 8, 9].length → (i < 1 ∨ 2 ≤ i) →
      (workerTask ([[1], [2], [3]], [7, 8, 9]) 1 2).2.getD i 0 = [(7 : Int), 8, 9].getD i 0)) :=
  ⟨by decide, claim5_worker_frame [[1], [2], [3]] [7, 8, 9] 1 2 (by decide) (by decide)⟩

theorem sumInt_replicate_zero : ∀ n : Nat, sumInt (List.replicate n 0) = 0 := by
  intro n
  induction n with
  | zero => rfl
  | succ m ih => simp only [List.replicate_succ, sumInt, ih, add_zero]

/-- C6: for a vector of at most 100 elements each in `[-1000, 1000]` the
worker's 64-bit accumulator never overflows: after any number of processed
elements the accumulator holds the exact partial sum, which stays within
`[-100000, 100000]`; in particular a one-vector dataset with `W = 1` yields
the exact sum, and an all-zero vector sums to 0. -/
theorem claim6_no_overflow (v : List Int) (hlen : v.length ≤ 100)
    (hb : ∀ x ∈ v, -1000 ≤ x ∧ x ≤ 1000) :
    (∀ n : Nat, (v.take n).foldl i64add 0 = sumInt (v.take n) ∧
      -100000 ≤ sumInt (v.take n) ∧ sumInt (v.take n) ≤ 100000) ∧
    vectorSum v = sumInt v ∧
    (runTrial [v] 1).getD 0 0 = sumInt v ∧
    vectorSum (List.replicate 100 (0 : Int)) = 0 := by
  have hvb := vectorSum_eq_sumInt v hlen hb
  refine ⟨?_, hvb, ?_, ?_⟩
  · intro n
    have hsub : v.take n ⊆ v := List.take_subset n v
    have hlen' : (v.take n).length ≤ 100 := by
      rw [List.length_take]; omega
    have hb' : ∀ x ∈ v.take n, -1000 ≤ x ∧ x ≤ 1000 := fun x hx => hb x (hsub hx)
    have heq := vectorSum_eq_sumInt (v.take n) hlen' hb'
    have hbd := sumInt_bounds (v.take n) hb'
    rw [vectorSum] at heq
    refine ⟨heq, ?_, ?_⟩ <;> push_cast at hbd <;>
      have : ((v.take n).length : Int) ≤ 100 := by exact_mod_cast hlen'
    · omega
    · omega
  · rw [runTrial_getD [v] 1 (by omega) 0, if_pos (by simp)]
    exact hvb
  · rw [vectorSum_eq_sumInt (List.replicate 100 0) (by simp) (by intro x hx; rw [List.eq_of_mem_replicate hx]; omega)]
    exact sumInt_replicate_zero 100

theorem claim6_no_overflow_witness :
    ([(1000 : Int), -1000, 7].length ≤ 100 ∧
      (∀ x ∈ [(1000 : Int), -1000, 7], -1000 ≤ x ∧ x ≤ 1000)) ∧
    ((∀ n : Nat, ([(1000 : Int), -1000, 7].take n).foldl i64add 0
        = sumInt ([(1000 : Int), -1000, 7].take n) ∧
      -100000 ≤ sumInt ([(1000 : Int), -1000, 7].take n) ∧
      sumInt ([(1000 : Int), -1000, 7].take n) ≤ 100000) ∧
    vectorSum [(1000 : Int), -1000, 7] = sumInt [(1000 : Int), -1000, 7] ∧
    (runTrial [[(1000 : Int), -1000, 7]] 1).getD 0 0 = sumInt [(1000 : Int), -1000, 7] ∧
    vectorSum (List.replicate 100 (0 : Int)) = 0) :=
  ⟨⟨by decide, by decide⟩, claim6_no_overflow [1000, -1000, 7] (by decide) (by decide)⟩

/-- `VectorSumCalculator::validateResults` (lines 92–110) with the 10 random
draws made explicit as the list of sampled indices in draw order. For each
sampled index the expected sum is recomputed from the raw elements by the same
64-bit linear accumulation; `none` models the function returning `true`
(success), `some idx` models it printing the failing index `idx` and returning
`false` at the first mismatch. -/
def validateResults (vectors : List (List Int)) (sums : List Int) :
    List Nat → Option Nat
  | [] => none
  | idx :: rest =>
      if sums.getD idx 0 = vectorSum (vectors.getD idx []) then
        validateResults vectors sums rest
      else some idx

/-- The per-trial loop of `runBenchmark` (lines 128–141), with each trial's
wall-clock reading and the validator's random draws passed in explicitly:
every trial resets the sums buffer, recomputes it, records its elapsed time
unconditionally, and logs the validator's verdict alongside. -/
def benchmarkLoop (vectors : List (List Int)) :
    List (Nat × Int × List Nat) → List (Int × Bool)
  | [] => []
  | (W, t, samples) :: rest =>
      (t, (validateResults vectors (runTrial vectors W) samples).isNone) ::
        benchmarkLoop vectors rest

theorem validateResults_none_iff (vectors : List (List Int)) (sums : List Int) :
    ∀ samples : List Nat, validateResults vectors sums samples = none ↔
      ∀ idx ∈ samples, sums.getD idx 0 = vectorSum (vectors.getD idx []) := by
  intro samples
  induction samples with
  | nil => simp [validateResults]
  | cons idx rest ih =>
    rw [validateResults]
    by_cases h : sums.getD idx 0 = vectorSum (vectors.getD idx [])
    · rw [if_pos h, ih]
      constructor
      · intro hall j hj
        rcases List.mem_cons.mp hj with hj | hj
        · rw [hj]; exact h
        · exact hall j hj
      · intro hall j hj
        exact hall j (List.mem_cons_of_mem idx hj)
    · rw [if_neg h]
      constructor
      · intro hc; exact absurd hc (by simp)
      · intro hall
        exact absurd (hall idx (List.mem_cons_self idx rest)) h

theorem validateResults_some (vectors : List (List Int)) (sums : List Int) :
    ∀ (samples : List Nat) (i : Nat), validateResults vectors sums samples = some i →
      sums.getD i 0 ≠ vectorSum (vectors.getD i []) ∧
      ∃ pre post, samples = pre ++ i :: post ∧
        ∀ j ∈ pre, sums.getD j 0 = vectorSum (vectors.getD j []) := by
  intro samples
  induction samples with
  | nil => intro i h; exact absurd h (by simp [validateResults])
  | cons idx rest ih =>
    intro i h
    rw [validateResults] at h
    by_cases hm : sums.getD idx 0 = vectorSum (vectors.getD idx [])
    · rw [if_pos hm] at h
      obtain ⟨hne, pre, post, hsplit, hpre⟩ := ih i h
      refine ⟨hne, idx :: pre, post, by rw [hsplit]; rfl, ?_⟩
      intro j hj
      rcases List.mem_cons.mp hj with hj | hj
      · rw [hj]; exact hm
      · exact hpre j hj
    · rw [if_neg hm] at h
      have : idx = i := Option.some.inj h
      subst this
      exact ⟨hm, [], rest, rfl, by intro j hj; exact absurd hj (by simp)⟩

theorem benchmarkLoop_times (vectors : List (List Int)) :
    ∀ trials : List (Nat × Int × List Nat),
      (benchmarkLoop vectors trials).map Prod.fst = trials.map (fun x => x.2.1) ∧
      (benchmarkLoop vectors trials).length = trials.length := by
  intro trials
  induction trials with
  | nil => exact ⟨rfl, rfl⟩
  | cons tr rest ih =>
    obtain ⟨W, t, samples⟩ := tr
    simp only [benchmarkLoop, List.map_cons, List.length_cons, ih.1, ih.2, and_self]

/-- C4: the validator, given its 10 sampled indices (drawn with replacement),
succeeds exactly when every sampled stored result equals the independently
recomputed sum; on failure it reports the first mismatching index; and the
benchmark loop records every trial's elapsed time regardless of the
validator's verdict, so a mismatch is non-fatal. -/
theorem claim4_validator (vectors : List (List Int)) (sums : List Int)
    (samples : List Nat) (_h10 : samples.length = 10) :
    (validateResults vectors sums samples = none ↔
      ∀ idx ∈ samples, sums.getD idx 0 = vectorSum (vectors.getD idx [])) ∧
    (∀ i, validateResults vectors sums samples = some i →
      sums.getD i 0 ≠ vectorSum (vectors.getD i []) ∧
      ∃ pre post, samples = pre ++ i :: post ∧
        ∀ j ∈ pre, sums.getD j 0 = vectorSum (vectors.getD j [])) ∧
    (∀ trials : List (Nat × Int × List Nat),
      (benchmarkLoop vectors trials).map Prod.fst = trials.map (fun x => x.2.1) ∧
      (benchmarkLoop vectors trials).length = trials.length) :=
  ⟨validateResults_none_iff vectors sums samples,
   fun i => validateResults_some vectors sums samples i,
   benchmarkLoop_times vectors⟩

theorem claim4_validator_witness :
    (List.replicate 10 0).length = 10 ∧
    ((validateResults [[(5 : Int)]] [5] (List.replicate 10 0) = none ↔
      ∀ idx ∈ List.replicate 10 0,
        [(5 : Int)].getD idx 0 = vectorSum ([[(5 : Int)]].getD idx [])) ∧
    (∀ i, validateResults [[(5 : Int)]] [5] (List.replicate 10 0) = some i →
      [(5 : Int)].getD i 0 ≠ vectorSum ([[(5 : Int)]].getD i []) ∧
      ∃ pre post, List.replicate 10 0 = pre ++ i :: post ∧
        ∀ j ∈ pre, [(5 : Int)].getD j 0 = vectorSum ([[(5 : Int)]].getD j []))) ∧
    (∀ trials : List (Nat × Int × List Nat),
      (benchmarkLoop [[(5 : Int)]] trials).map Prod.fst = trials.map (fun x => x.2.1) ∧
      (benchmarkLoop [[(5 : Int)]] trials).length = trials.length) := by
  have h := claim4_validator [[(5 : Int)]] [5] (List.replicate 10 0) (by decide)
  exact ⟨by decide, ⟨h.1, h.2.1⟩, h.2.2⟩

/-- `*min_element(sums.begin(), sums.end())` on a list (0 for the empty list,
where the C++ call would be invalid). -/
def listMin : List Int → Int
  | [] => 0
  | x :: xs => xs.foldl min x

/-- `*max_element(sums.begin(), sums.end())` on a list (0 for the empty list,
where the C++ call would be invalid). -/
def listMax : List Int → Int
  | [] => 0
  | x :: xs => xs.foldl max x

/-- The total-sum loop of the summary block (lines 156–159):
`long long total_sum = 0; for (long long sum : sums) total_sum += sum;` —
64-bit wrapping accumulation over the stored results. -/
def totalSum (sums : List Int) : Int := sums.foldl i64add 0

/-- The summary block of `runBenchmark` (lines 152–171): minimum, maximum,
arithmetic mean (the 64-bit accumulated total divided by the element count,
as an exact fraction standing for the C++ `double` division), and the first
10 results. -/
def summaryOf (sums : List Int) : Int × Int × ℚ × List Int :=
  (listMin sums, listMax sums, (totalSum sums : ℚ) / (sums.length : ℚ), sums.take 10)

/-- The sums buffer live after the whole trial loop of `runBenchmark`, given
the ascending worker-count list: each trial resets the buffer to zeros and
fully overwrites it, so only the last trial's writes survive. -/
def benchSums (vectors : List (List Int)) (thread_counts : List Nat) : List Int :=
  thread_counts.foldl (fun _ W => runTrial vectors W) (List.replicate vectors.length 0)

theorem foldl_min_mem : ∀ (xs : List Int) (x : Int), xs.foldl min x ∈ x :: xs := by
  intro xs
  induction xs with
  | nil => intro x; simp
  | cons y ys ih =>
    intro x
    rw [List.foldl_cons]
    rcases List.mem_cons.mp (ih (min x y)) with h | h
    · rcases min_choice x y with hc | hc <;> rw [h, hc]
      · exact List.mem_cons_self x (y :: ys)
      · exact List.mem_cons_of_mem x (List.mem_cons_self y ys)
    · exact List.mem_cons_of_mem x (List.mem_cons_of_mem y h)

theorem foldl_min_le : ∀ (xs : List Int) (x y : Int), y ∈ x :: xs → xs.foldl min x ≤ y := by
  intro xs
  induction xs with
  | nil =>
    intro x y hy
    rw [List.mem_singleton.mp hy]
    exact le_refl x
  | cons z zs ih =>
    intro x y hy
    rw [List.foldl_cons]
    rcases List.mem_cons.mp hy with h | h
    · calc zs.foldl min (min x z) ≤ min x z :=
            ih (min x z) (min x z) (List.mem_cons_self _ zs)
        _ ≤ y := by rw [h]; exact min_le_left x z
    · rcases List.mem_cons.mp h with h2 | h2
      · calc zs.foldl min (min x z) ≤ min x z :=
              ih (min x z) (min x z) (List.mem_cons_self _ zs)
          _ ≤ y := by rw [h2]; exact min_le_right x z
      · exact ih (min x z) y (List.mem_cons_of_mem _ h2)

theorem foldl_max_mem : ∀ (xs : List Int) (x : Int), xs.foldl max x ∈ x :: xs := by
  intro xs
  induction xs with
  | nil => intro x; simp
  | cons y ys ih =>
    intro x
    rw [List.foldl_cons]
    rcases List.mem_cons.mp (ih (max x y)) with h | h
    · rcases max_choice x y with hc | hc <;> rw [h, hc]
      · exact List.mem_cons_self x (y :: ys)
      · exact List.mem_cons_of_mem x (List.mem_cons_self y ys)
    · exact List.mem_cons_of_mem x (List.mem_cons_of_mem y h)

theorem foldl_le_max : ∀ (xs : List Int) (x y : Int), y ∈ x :: xs → y ≤ xs.foldl max x := by
  intro xs
  induction xs with
  | nil =>
    intro x y hy
    rw [List.mem_singleton.mp hy]
    exact le_refl x
  | cons z zs ih =>
    intro x y hy
    rw [List.foldl_cons]
    rcases List.mem_cons.mp hy with h | h
    · calc y ≤ max x z := by rw [h]; exact le_max_left x z
        _ ≤ zs.foldl max (max x z) :=
            ih (max x z) (max x z) (List.mem_cons_self _ zs)
    · rcases List.mem_cons.mp h with h2 | h2
      · calc y ≤ max x z := by rw [h2]; exact le_max_right x z
          _ ≤ zs.foldl max (max x z) :=
              ih (max x z) (max x z) (List.mem_cons_self _ zs)
      · exact ih (max x z) y (List.mem_cons_of_mem _ h2)

theorem listMin_spec (s : List Int) (hne : s ≠ []) :
    listMin s ∈ s ∧ ∀ x ∈ s, listMin s ≤ x := by
  match s, hne with
  | x :: xs, _ =>
    exact ⟨foldl_min_mem xs x, fun y hy => foldl_min_le xs x y hy⟩

theorem listMax_spec (s : List Int) (hne : s ≠ []) :
    listMax s ∈ s ∧ ∀ x ∈ s, x ≤ listMax s := by
  match s, hne with
  | x :: xs, _ =>
    exact ⟨foldl_max_mem xs x, fun y hy => foldl_le_max xs x y hy⟩

theorem benchSums_eq_last (vectors : List (List Int)) :
    ∀ (tcs : List Nat) (hne : tcs ≠ []) (init : List Int),
      tcs.foldl (fun _ W => runTrial vectors W) init = runTrial vectors (tcs.getLast hne) := by
  intro tcs
  induction tcs with
  | nil => intro hne; exact absurd rfl hne
  | cons x xs ih =>
    intro hne init
    match xs with
    | [] => rfl
    | y :: ys =>
      rw [List.foldl_cons, ih (by simp) (runTrial vectors x)]
      congr 1

theorem sumInt_bounds_of_bound (B : Int) (v : List Int) (h : ∀ x ∈ v, -B ≤ x ∧ x ≤ B) :
    -(B * v.length) ≤ sumInt v ∧ sumInt v ≤ B * v.length := by
  induction v with
  | nil => simp [sumInt]
  | cons x xs ih =>
    have hx := h x (by simp)
    have hxs := ih (fun y hy => h y (by simp [hy]))
    simp only [sumInt, List.length_cons]
    have hmul : B * ((xs.length : Int) + 1) = B * xs.length + B := by ring
    push_cast
    omega

theorem foldl_i64add_eq_of_bound (B : Int) (v : List Int) : ∀ acc : Int,
    (∀ x ∈ v, -B ≤ x ∧ x ≤ B) →
    -(2 ^ 63) + B * v.length ≤ acc →
    acc + B * v.length < 2 ^ 63 →
    v.foldl i64add acc = acc + sumInt v := by
  induction v with
  | nil => intro acc _ _ _; simp [sumInt]
  | cons x xs ih =>
    intro acc h hlo hhi
    have hx := h x (by simp)
    have hB : (0 : Int) ≤ B := by omega
    simp only [List.length_cons] at hlo hhi
    have hlen0 : (0 : Int) ≤ B * xs.length := mul_nonneg hB (by positivity)
    have hmul : B * ((xs.length : Int) + 1) = B * xs.length + B := by ring
    have hstep : i64add acc x = acc + x := by
      apply i64wrap_eq_of_bounds <;> push_cast at hlo hhi ⊢ <;> omega
    simp only [List.foldl_cons, hstep]
    rw [ih (acc + x) (fun y hy => h y (by simp [hy])) (by push_cast at hlo ⊢; omega)
      (by push_cast at hhi ⊢; omega)]
    simp [sumInt]; ring

/-- Every entry of a trial's results is a 100-element-bounded vector sum, so
it lies within `[-100000, 100000]`. -/
theorem runTrial_entry_bounds (vectors : List (List Int)) (W : Nat) (hW : 1 ≤ W)
    (hgen : ∀ v ∈ vectors, v.length ≤ 100 ∧ ∀ x ∈ v, -1000 ≤ x ∧ x ≤ 1000) :
    ∀ x ∈ runTrial vectors W, -100000 ≤ x ∧ x ≤ 100000 := by
  intro x hx
  obtain ⟨i, hi, hxi⟩ := List.mem_iff_getElem.mp hx
  have hlen : i < vectors.length := by
    rw [runTrial_length] at hi; exact hi
  have hgd : (runTrial vectors W).getD i 0 = x := by
    rw [List.getD_eq_getElem _ 0 hi]; exact hxi
  rw [runTrial_getD vectors W hW i, if_pos hlen] at hgd
  have hmem : vectors.getD i [] ∈ vectors := by
    rw [List.getD_eq_getElem vectors [] hlen]
    exact List.getElem_mem hlen
  obtain ⟨hl, hb⟩ := hgen _ hmem
  have heq := vectorSum_eq_sumInt _ hl hb
  have hbd := sumInt_bounds _ hb
  rw [← hgd, heq]
  have hli : ((vectors.getD i []).length : Int) ≤ 100 := by exact_mod_cast hl
  push_cast at hbd
  constructor <;> omega

/-- Under the program's parameters (entries bounded by the worst-case vector
sum, at most 30000 of them) the 64-bit wrapping total never overflows and
equals the exact sum of the results. -/
theorem totalSum_eq_sumInt (s : List Int) (hb : ∀ x ∈ s, -100000 ≤ x ∧ x ≤ 100000)
    (hlen : s.length ≤ 30000) : totalSum s = sumInt s := by
  have hlen' : ((s.length : Int)) ≤ 30000 := by exact_mod_cast hlen
  have := foldl_i64add_eq_of_bound 100000 s 0 hb (by push_cast; omega) (by push_cast; omega)
  simpa [totalSum] using this

/-- C7: the summary statistics printed after all trials are the minimum, the
maximum and the arithmetic mean (the 64-bit accumulated total divided by `N`,
as a fraction) of the last completed trial's results, followed by the first
10 results; the buffer live at summary time is exactly the last trial's
buffer, so the statistics reflect only the final trial in the worker-count
list and aggregate nothing across trials; and under the program's parameters
(generator-shaped dataset of at most 30000 vectors, last worker count ≥ 1)
the wrapping total equals the exact sum of all results, so the printed mean
is the true arithmetic mean. -/
theorem claim7_summary_last_trial (vectors : List (List Int)) (tcs : List Nat)
    (hne : tcs ≠ []) (hvne : vectors ≠ [])
    (hgen : ∀ v ∈ vectors, v.length ≤ 100 ∧ ∀ x ∈ v, -1000 ≤ x ∧ x ≤ 1000)
    (hN : vectors.length ≤ 30000) (hW : 1 ≤ tcs.getLast hne) :
    benchSums vectors tcs = runTrial vectors (tcs.getLast hne) ∧
    summaryOf (benchSums vectors tcs) = summaryOf (runTrial vectors (tcs.getLast hne)) ∧
    listMin (benchSums vectors tcs) ∈ benchSums vectors tcs ∧
    (∀ x ∈ benchSums vectors tcs, listMin (benchSums vectors tcs) ≤ x) ∧
    listMax (benchSums vectors tcs) ∈ benchSums vectors tcs ∧
    (∀ x ∈ benchSums vectors tcs, x ≤ listMax (benchSums vectors tcs)) ∧
    (summaryOf (benchSums vectors tcs)).2.2.1
      = (sumInt (benchSums vectors tcs) : ℚ) / (vectors.length : ℚ) ∧
    (summaryOf (benchSums vectors tcs)).2.2.2 = (benchSums vectors tcs).take 10 := by
  have hlast : benchSums vectors tcs = runTrial vectors (tcs.getLast hne) :=
    benchSums_eq_last vectors tcs hne _
  have hlen : (benchSums vectors tcs).length = vectors.length := by
    rw [hlast, runTrial_length]
  have hsne : benchSums vectors tcs ≠ [] := by
    intro h
    rw [h] at hlen
    exact hvne (List.length_eq_zero.mp hlen.symm)
  obtain ⟨hminmem, hminle⟩ := listMin_spec _ hsne
  obtain ⟨hmaxmem, hmaxle⟩ := listMax_spec _ hsne
  have hbounds : ∀ x ∈ benchSums vectors tcs, -100000 ≤ x ∧ x ≤ 100000 := by
    rw [hlast]
    exact runTrial_entry_bounds vectors _ hW hgen
  have htot : totalSum (benchSums vectors tcs) = sumInt (benchSums vectors tcs) :=
    totalSum_eq_sumInt _ hbounds (by rw [hlen]; exact hN)
  refine ⟨hlast, by rw [hlast], hminmem, hminle, hmaxmem, hmaxle, ?_, rfl⟩
  show (totalSum (benchSums vectors tcs) : ℚ) / ((benchSums vectors tcs).length : ℚ) = _
  rw [htot, hlen]

theorem claim7_summary_last_trial_witness :
    (([(1 : Nat), 2] : List Nat) ≠ [] ∧ ([[(3 : Int)]] : List (List Int)) ≠ [] ∧
      (∀ v ∈ ([[(3 : Int)]] : List (List Int)),
        v.length ≤ 100 ∧ ∀ x ∈ v, -1000 ≤ x ∧ x ≤ 1000) ∧
      ([[(3 : Int)]] : List (List Int)).length ≤ 30000 ∧
      1 ≤ ([(1 : Nat), 2] : List Nat).getLast (by decide)) ∧
    (benchSums [[(3 : Int)]] [1, 2]
        = runTrial [[(3 : Int)]] (([(1 : Nat), 2] : List Nat).getLast (by decide)) ∧
    summaryOf (benchSums [[(3 : Int)]] [1, 2])
        = summaryOf (runTrial [[(3 : Int)]] (([(1 : Nat), 2] : List Nat).getLast (by decide))) ∧
    listMin (benchSums [[(3 : Int)]] [1, 2]) ∈ benchSums [[(3 : Int)]] [1, 2] ∧
    (∀ x ∈ benchSums [[(3 : Int)]] [1, 2], listMin (benchSums [[(3 : Int)]] [1, 2]) ≤ x) ∧
    listMax (benchSums [[(3 : Int)]] [1, 2]) ∈ benchSums [[(3 : Int)]] [1, 2] ∧
    (∀ x ∈ benchSums [[(3 : Int)]] [1, 2], x ≤ listMax (benchSums [[(3 : Int)]] [1, 2])) ∧
    (summaryOf (benchSums [[(3 : Int)]] [1, 2])).2.2.1
      = (sumInt (benchSums [[(3 : Int)]] [1, 2]) : ℚ) / (([[(3 : Int)]] : List (List Int)).length : ℚ) ∧
    (summaryOf (benchSums [[(3 : Int)]] [1, 2])).2.2.2
      = (benchSums [[(3 : Int)]] [1, 2]).take 10) :=
  ⟨⟨by decide, by decide, by decide, by decide, by decide⟩,
    claim7_summary_last_trial [[(3 : Int)]] [1, 2] (by decide) (by decide) (by decide)
      (by decide) (by decide)⟩

/-- `main` (lines 176–187): the try/catch at the entry point, with the body's
outcome made explicit — `Except.ok` when `runBenchmark` returns normally,
`Except.error msg` when an exception whose message is `msg` propagates out of
it. The result is the process exit code paired with the message printed to
the error stream (`none` when nothing is printed there). -/
def mainResult : Except String Unit → Nat × Option String
  | Except.ok _ => (0, none)
  | Except.error msg => (1, some msg)

/-- C8: the process exits with code 0 on normal completion, and with code 1
whenever an error propagates to the entry point, with that error's message
printed to the error stream. -/
theorem claim8_exit_codes :
    mainResult (Except.ok ()) = (0, none) ∧
    ∀ msg : String, mainResult (Except.error msg) = (1, some msg) :=
  ⟨rfl, fun _ => rfl⟩

/-- Validity of the sampling distribution of `validateResults` (line 95):
`uniform_int_distribution(0, vectors.size() - 1)` requires its lower bound to
be at most its upper bound, and with `N = 0` the upper bound `N - 1` falls
below 0, so the distribution's precondition fails. -/
def distBoundsValid (N : Nat) : Bool := decide ((0 : Int) ≤ (N : Int) - 1)

/-- C9: the validator needs a nonempty dataset: with `N ≥ 1` the distribution
bounds `(0, N-1)` are valid and every sampled index is an in-bounds index of
both the dataset and the results buffer; with `N = 0` the bounds are invalid,
so `N ≥ 1` is a necessary precondition. -/
theorem claim9_validator_precondition (N : Nat) :
    (1 ≤ N → distBoundsValid N = true ∧
      (∀ (vectors : List (List Int)) (sums : List Int), vectors.length = N →
        sums.length = N → ∀ idx : Nat, idx ≤ N - 1 →
          idx < vectors.length ∧ idx < sums.length)) ∧
    (N = 0 → distBoundsValid N = false) := by
  constructor
  · intro hN
    constructor
    · rw [distBoundsValid, decide_eq_true_iff]
      omega
    · intro vectors sums hv hs idx hidx
      omega
  · intro h
    subst h
    rfl

theorem claim9_validator_precondition_witness :
    (1 ≤ 3 → distBoundsValid 3 = true ∧
      (∀ (vectors : List (List Int)) (sums : List Int), vectors.length = 3 →
        sums.length = 3 → ∀ idx : Nat, idx ≤ 3 - 1 →
          idx < vectors.length ∧ idx < sums.length)) ∧
    (3 = 0 → distBoundsValid 3 = false) :=
  claim9_validator_precondition 3
